import Mathlib

/-!
# Verification of the DNA 2-bit codec (`dna.c`)

A shallow embedding of the C sources of the DNA repository
(`src/dna.h`, `src/dna.c`, `src/main.c`) and proofs about it.

Strings handled by the C code are modelled as `List Char` (every
character is ASCII); the bytes of the binary `.seq` container and of
the emitted FASTA file are modelled as `List Nat` with values < 256
where the code writes them.  Machine integers (`uint8_t` buffers,
`uint32_t meta_len`, `uint64_t seq_len`) are modelled as `Nat` with
explicit `% 2^w` at the points where the C code can overflow or
truncate.  Functions that call `exit(EXIT_FAILURE)` are modelled as
`Option`-returning (or with an explicit error constructor): `none`
(resp. `.fatal`) is the fatal exit.
-/

/-- Macro `TYPE_DNA 1` (dna.h). -/
def TYPE_DNA : Nat := 1

/-- Macro `TYPE_RNA 2` (dna.h). -/
def TYPE_RNA : Nat := 2

/-- Constant `SEQ_SIGNATURE` (dna.h), the bytes of the magic string `"SEQ\x01"`. -/
def SEQ_SIGNATURE : List Nat := [83, 69, 81, 1]

/-- Constant `VERSION = 0x01` (dna.h). -/
def VERSION : Nat := 1

/-- Function `base_to_bits` (dna.c:23-33): 2-bit code of a base character.
`none` models the `exit(EXIT_FAILURE)` on an invalid base. -/
def base_to_bits (base : Char) : Option Nat :=
  if base = 'A' then some 0
  else if base = 'C' then some 1
  else if base = 'G' then some 2
  else if base = 'T' ∨ base = 'U' then some 3
  else none

/-- C `toupper` restricted to ASCII, as applied by `dna.c` via `<ctype.h>`. -/
def cToUpper (c : Char) : Char :=
  if 'a' ≤ c ∧ c ≤ 'z' then Char.ofNat (c.toNat - 32) else c

/-- Function `detect_rna` (dna.c:40-45): scans the sequence for `'U'` after `toupper`. -/
def detect_rna (seq : List Char) : Bool :=
  seq.any (fun c => cToUpper c = 'U')

/-- The normalization loop of `write_seq_file` (dna.c:66-73): uppercase,
keep only `A C G T U`, rewrite `'U'` to `'T'`. -/
def cleanSeq (seq : List Char) : List Char :=
  (seq.map cToUpper).filterMap (fun c =>
    if c = 'A' ∨ c = 'C' ∨ c = 'G' ∨ c = 'T' ∨ c = 'U' then
      some (if c = 'U' then 'T' else c)
    else none)

/-- Mapping `base_to_bits` over every base of a list; `none` as soon as one
base is invalid (the C program would have exited there). -/
def encodeCodes : List Char → Option (List Nat)
  | [] => some []
  | c :: cs =>
    match base_to_bits c, encodeCodes cs with
    | some b, some bs => some (b :: bs)
    | _, _ => none

/-- The bit-packing loop of `write_seq_file` (dna.c:92-107).  State
`buffer`/`bits` mirrors the local variables; `buffer <<= 2; buffer |= code`
on a `uint8_t` is `(buffer * 4 + code) % 256`, and the final partial byte
is left-shifted so its unused low-order bits are zero. -/
def packLoop : List Nat → Nat → Nat → List Nat
  | [], buffer, bits =>
    if 0 < bits then [buffer * 2 ^ (8 - bits) % 256] else []
  | c :: cs, buffer, bits =>
    let buffer' := (buffer * 4 + c) % 256
    if bits + 2 = 8 then buffer' :: packLoop cs 0 0
    else packLoop cs buffer' (bits + 2)

/-- Little-endian byte image of `n` on `k` bytes, as `fwrite` of a
multi-byte integer produces on the reference (little-endian) platform.
Implicitly truncates to `n % 256^k`, exactly as storing into a `k`-byte
machine integer does. -/
def leBytes : Nat → Nat → List Nat
  | 0, _ => []
  | k + 1, n => n % 256 :: leBytes k (n / 256)

/-- Value read back from a little-endian byte list (`fread` into a
multi-byte integer on the reference platform). -/
def fromLE (bs : List Nat) : Nat :=
  bs.foldr (fun b acc => b + 256 * acc) 0

/-- Byte layout of the binary container, in the exact field order
`write_seq_file` emits (dna.c:80-107): signature, version, `meta_len`
(4-byte LE), metadata bytes, type tag, `seq_len` (8-byte LE), payload. -/
def mkContainer (meta : List Nat) (ty : Nat) (seqlen : Nat) (payload : List Nat) : List Nat :=
  SEQ_SIGNATURE ++ [VERSION] ++ leBytes 4 meta.length ++ meta ++ [ty] ++
    leBytes 8 seqlen ++ payload

/-- Function `write_seq_file` (dna.c:53-111), as the byte content of the file it
writes.  The `id` argument only names the output file (`"<id>.seq"`) and
does not influence the bytes, so it is not a parameter here.
`meta_len = (uint32_t)strlen(desc)` truncates to 32 bits and
`fwrite(desc, 1, meta_len, out)` then writes only `meta_len` bytes.
`none` models the defensive `exit` of `base_to_bits` (unreachable after
cleaning, see `write_seq_file_total`). -/
def write_seq_file (desc seq : List Char) : Option (List Nat) :=
  let cleaned := cleanSeq seq
  let meta_len := desc.length % 2 ^ 32
  let ty := if detect_rna seq then TYPE_RNA else TYPE_DNA
  match encodeCodes cleaned with
  | none => none
  | some codes =>
    some (SEQ_SIGNATURE ++ [VERSION] ++ leBytes 4 desc.length ++
      ((desc.map Char.toNat).take meta_len) ++ [ty] ++
      leBytes 8 cleaned.length ++ packLoop codes 0 0)

/-- Function `bits_to_base` (dna.c:172-182): the argument is masked with `& 0b11`,
so the function is total; code 3 renders as `'U'` exactly when the type
tag equals `TYPE_RNA`, else `'T'`. -/
def bits_to_base (bits ty : Nat) : Char :=
  match bits % 4 with
  | 0 => 'A'
  | 1 => 'C'
  | 2 => 'G'
  | _ => if ty = TYPE_RNA then 'U' else 'T'

/-- The inner `for (shift = 6; shift >= 0 && bases_written < seqlen; shift -= 2)`
loop of `decode_seq_to_fasta` (dna.c:230-235), over the list of shift
amounts still to process.  Returns the emitted characters (bases plus the
newline the code prints after every 60th base) and the updated
`bases_written`. -/
def decodeShifts : List Nat → Nat → Nat → Nat → Nat → List Char × Nat
  | [], _, _, _, written => ([], written)
  | s :: ss, byte, seqlen, ty, written =>
    if written < seqlen then
      let base := bits_to_base (byte / 2 ^ s % 4) ty
      let rest := decodeShifts ss byte seqlen ty (written + 1)
      ((if (written + 1) % 60 = 0 then base :: '\n' :: rest.1 else base :: rest.1),
       rest.2)
    else ([], written)

/-- The outer `while (fread(&byte, 1, 1, in) == 1 && bases_written < seqlen)`
loop of `decode_seq_to_fasta` (dna.c:229-236): one byte at a time, four
2-bit codes per byte, high-to-low. -/
def decodeBytes : List Nat → Nat → Nat → Nat → List Char × Nat
  | [], _, _, written => ([], written)
  | b :: bs, seqlen, ty, written =>
    if written < seqlen then
      let r := decodeShifts [6, 4, 2, 0] b seqlen ty written
      let rest := decodeBytes bs seqlen ty r.2
      (r.1 ++ rest.1, rest.2)
    else ([], written)

/-- Result of `decode_seq_to_fasta`.  `.fatal` is `exit(EXIT_FAILURE)`
after the signature check; `.garbage` marks the executions in which the
C code reads a header field whose `fread` came up short and then uses the
uninitialized (indeterminate) bytes — no defined output exists there. -/
inductive DecodeResult where
  | fatal : DecodeResult
  | garbage : DecodeResult
  | ok : List Char → DecodeResult
deriving DecidableEq, Repr

/-- Function `decode_seq_to_fasta` (dna.c:189-242), as a function from the bytes of
the `.seq` file to the text written to the FASTA file.  The signature
buffer is zero-initialized (`char signature[5] = {0}`), so a short first
read compares zero-padded bytes against the magic.  None of the header
`fread` calls is checked by the C code: a short read there leaves the
field (partly) uninitialized, modelled as `.garbage`.  The payload loop
checks its `fread`, so a truncated payload just ends the loop.
`fprintf(out, "%s\n", meta)` stops at the first NUL byte of `meta`. -/
def decode_seq_to_fasta (input : List Nat) : DecodeResult :=
  let sig := input.take 4 ++ List.replicate (4 - input.length) 0
  if sig ≠ SEQ_SIGNATURE then .fatal
  else
    -- version byte: read (dna.c:204) but never used
    let r1 := (input.drop 4).drop 1
    if r1.length < 4 then .garbage
    else
      let meta_len := fromLE (r1.take 4)
      let r2 := r1.drop 4
      if r2.length < meta_len then .garbage
      else
        let meta := r2.take meta_len
        let r3 := r2.drop meta_len
        if r3.length < 1 then .garbage
        else
          let ty := r3.headD 0
          let r4 := r3.drop 1
          if r4.length < 8 then .garbage
          else
            let seqlen := fromLE (r4.take 8)
            let r5 := r4.drop 8
            let body := decodeBytes r5 seqlen ty 0
            .ok ((meta.takeWhile (fun b => b ≠ 0)).map Char.ofNat ++
              '\n' :: body.1 ++ (if body.2 % 60 = 0 then [] else ['\n']))

/-!
## FASTA scanner (`parse_fasta`, dna.c:117-162)

The scanner is modelled on the list of lines `fgets` yields (each at most
4095 characters, the last possibly without a terminator — the claims here
do not depend on the 4096-byte line buffer).  Its state mirrors the three
pointers `seq`, `id`, `desc`: `none` is a NULL pointer.  A record is
flushed to `write_seq_file` only when all three are non-NULL
(dna.c:129,155); `seq` becomes non-NULL the first time a non-header line
is appended (even an empty one: `realloc` is called because
`seqlen + len + 1 > seqcap` holds with all three zero).
-/

/-- The scanner's three per-record variables (`id`, `desc`, `seq`). -/
structure ScanState where
  recId : Option (List Char)
  desc : Option (List Char)
  seq : Option (List Char)
deriving Repr

/-- The NULL-initialized state (dna.c:124). -/
def initScan : ScanState := ⟨none, none, none⟩

/-- Statement `line[strcspn(line, "\r\n")] = 0` (dna.c:138): truncate at the first
CR or LF. -/
def truncAtCRLF (l : List Char) : List Char :=
  l.takeWhile (fun c => ¬(c = '\r' ∨ c = '\n'))

/-- The trailing-terminator strip of a sequence line (dna.c:145-146):
`while (len && (line[len-1] == '\n' || line[len-1] == '\r')) len--`. -/
def stripSeqLine (l : List Char) : List Char :=
  (l.reverse.dropWhile (fun c => c = '\n' ∨ c = '\r')).reverse

/-- The `id` extraction from a header line (dna.c:140-143): the space (if any)
is temporarily NUL-ed, `strdup(desc + 1)` copies from after the marker up
to it. -/
def headerId (hdr : List Char) : List Char :=
  (hdr.drop 1).takeWhile (fun c => c ≠ ' ')

/-- One iteration of the `while (fgets(...))` loop (dna.c:127-153):
processes one line, returning the records flushed by it (in order) and
the new state. -/
def stepLine (st : ScanState) (line : List Char) : List (List Char × List Char × List Char) × ScanState :=
  if line.headD ' ' = '>' then
    let flushed :=
      match st.recId, st.desc, st.seq with
      | some i, some d, some s => [(i, d, s)]
      | _, _, _ => []
    let hdr := truncAtCRLF line
    -- if no record was flushed the old seq pointer (and its contents)
    -- survives into the new record (dna.c frees/NULLs seq only on flush)
    let seq' := if flushed.isEmpty then st.seq else none
    (flushed, ⟨some (headerId hdr), some hdr, seq'⟩)
  else
    let l := stripSeqLine line
    ([], { st with seq := some (st.seq.getD [] ++ l) })

/-- The whole of `parse_fasta` (dna.c:117-162) as the list of
`(id, desc, seq)` triples passed to `write_seq_file`, in call order,
including the final flush at end of input (dna.c:155-159). -/
def scanLines : List (List Char) → ScanState → List (List Char × List Char × List Char)
  | [], st =>
    match st.recId, st.desc, st.seq with
    | some i, some d, some s => [(i, d, s)]
    | _, _, _ => []
  | l :: ls, st =>
    let r := stepLine st l
    r.1 ++ scanLines ls r.2

/-- Function `parse_fasta` on a list of input lines, from the NULL state. -/
def parse_fasta (lines : List (List Char)) : List (List Char × List Char × List Char) :=
  scanLines lines initScan

/-!
## Specification-side definitions

These re-state, in the spec's words, the shapes the claims assert the
code-level functions above produce; the theorems compare the two.
-/

/-- Spec wording of the payload packing: four 2-bit codes per byte,
most-significant bits first, final partial byte zero-padded in its
low-order bits. -/
def packSpec : List Nat → List Nat
  | a :: b :: c :: d :: rest => (a * 64 + b * 16 + c * 4 + d) :: packSpec rest
  | [a] => [a * 64]
  | [a, b] => [a * 64 + b * 16]
  | [a, b, c] => [a * 64 + b * 16 + c * 4]
  | [] => []

/-- The four 2-bit codes of a byte, high-to-low. -/
def byteCodes (b : Nat) : List Nat :=
  [b / 64 % 4, b / 16 % 4, b / 4 % 4, b % 4]

/-- All 2-bit codes of a byte list, in stream order. -/
def allCodes (bytes : List Nat) : List Nat :=
  bytes.flatMap byteCodes

/-- Wrapping at 60 columns without the trailing newline: a newline after
every 60th emitted character, counting from `written` already emitted. -/
def wrapBody : List Char → Nat → List Char
  | [], _ => []
  | c :: cs, w =>
    if (w + 1) % 60 = 0 then c :: '\n' :: wrapBody cs (w + 1)
    else c :: wrapBody cs (w + 1)

/-- Spec wording of the decoder's base layout: wrap at 60 characters per
line and end with a newline even when the last line is short (no newline
at all for an empty body). -/
def wrap60 (l : List Char) : List Char :=
  wrapBody l 0 ++ (if l.length % 60 = 0 then [] else ['\n'])

/-- The bytes of the `metadata` field of a container, located by the fixed
layout of §3: they start at offset 9 (after the 4 signature bytes, the
version byte and the 4 `meta_len` bytes) and run for `meta_len` bytes. -/
def metadataField (container : List Nat) : List Nat :=
  (container.drop 9).take (fromLE ((container.drop 5).take 4))

/-!
## Helper lemmas
-/

theorem leBytes_length (k n : Nat) : (leBytes k n).length = k := by
  induction k generalizing n with
  | zero => rfl
  | succ k ih => simp [leBytes, ih]

theorem fromLE_leBytes (k n : Nat) : fromLE (leBytes k n) = n % 256 ^ k := by
  induction k generalizing n with
  | zero => simp [leBytes, fromLE, Nat.mod_one]
  | succ k ih =>
    simp only [leBytes, fromLE, List.foldr_cons] at *
    rw [ih]
    have : (256 : Nat) ^ (k + 1) = 256 * 256 ^ k := by ring
    rw [this, Nat.mod_mul]

theorem fromLE_leBytes_of_lt {k n : Nat} (h : n < 256 ^ k) :
    fromLE (leBytes k n) = n := by
  rw [fromLE_leBytes, Nat.mod_eq_of_lt h]

theorem charToNat_ofNat {n : Nat} (h : n.isValidChar) : (Char.ofNat n).toNat = n := by
  simp [Char.ofNat, h, Char.toNat, Char.ofNatAux, UInt32.toNat, UInt32.ofNat',
    BitVec.toNat_ofNat]

theorem cToUpper_eq_U (c : Char) : cToUpper c = 'U' ↔ (c = 'u' ∨ c = 'U') := by
  constructor
  · intro h
    unfold cToUpper at h
    split at h
    · rename_i hr
      have h1 : 97 ≤ c.toNat := by simpa [Char.le_def] using hr.1
      have h2 : c.toNat ≤ 122 := by simpa [Char.le_def] using hr.2
      have hv : (c.toNat - 32).isValidChar := by
        left
        change c.toNat - 32 < 55296
        omega
      have := congrArg Char.toNat h
      rw [charToNat_ofNat hv] at this
      have hc : c.toNat = 117 := by
        change c.toNat - 32 = 85 at this
        omega
      left
      have := Char.ofNat_toNat c
      rw [hc] at this
      exact this.symm
    · right; exact h
  · rintro (rfl | rfl) <;> decide

theorem detect_rna_iff (seq : List Char) :
    detect_rna seq = true ↔ ('u' ∈ seq ∨ 'U' ∈ seq) := by
  simp only [detect_rna, List.any_eq_true, decide_eq_true_eq]
  constructor
  · rintro ⟨c, hc, hcu⟩
    rcases (cToUpper_eq_U c).mp hcu with rfl | rfl
    · left; exact hc
    · right; exact hc
  · rintro (h | h)
    · exact ⟨'u', h, by decide⟩
    · exact ⟨'U', h, by decide⟩

theorem cleanSeq_mem {seq : List Char} {c : Char} (h : c ∈ cleanSeq seq) :
    c = 'A' ∨ c = 'C' ∨ c = 'G' ∨ c = 'T' := by
  simp only [cleanSeq, List.mem_filterMap, List.mem_map] at h
  obtain ⟨b, _, hb⟩ := h
  split at hb
  · rename_i halpha
    simp only [Option.some.injEq] at hb
    subst hb
    rcases halpha with rfl | rfl | rfl | rfl | rfl <;> simp
  · exact absurd hb (by simp)

theorem encodeCodes_of_mem {l : List Char}
    (h : ∀ c ∈ l, c = 'A' ∨ c = 'C' ∨ c = 'G' ∨ c = 'T') :
    encodeCodes l = some (l.map (fun c => (base_to_bits c).getD 0)) := by
  induction l with
  | nil => rfl
  | cons c cs ih =>
    have hc := h c (by simp)
    have hcs := ih (fun x hx => h x (by simp [hx]))
    rcases hc with rfl | rfl | rfl | rfl <;>
      simp [encodeCodes, base_to_bits, hcs]

theorem write_seq_file_eq (desc seq : List Char) :
    write_seq_file desc seq =
      some (SEQ_SIGNATURE ++ [VERSION] ++ leBytes 4 desc.length ++
        ((desc.map Char.toNat).take (desc.length % 2 ^ 32)) ++
        [if detect_rna seq then TYPE_RNA else TYPE_DNA] ++
        leBytes 8 (cleanSeq seq).length ++
        packLoop ((cleanSeq seq).map (fun c => (base_to_bits c).getD 0)) 0 0) := by
  simp only [write_seq_file, encodeCodes_of_mem (fun c hc => cleanSeq_mem hc)]

theorem packLoop_nil (buffer bits : Nat) :
    packLoop [] buffer bits = if 0 < bits then [buffer * 2 ^ (8 - bits) % 256] else [] := rfl

theorem packLoop_cons (c : Nat) (cs : List Nat) (buffer bits : Nat) :
    packLoop (c :: cs) buffer bits =
      if bits + 2 = 8 then ((buffer * 4 + c) % 256) :: packLoop cs 0 0
      else packLoop cs ((buffer * 4 + c) % 256) (bits + 2) := rfl

theorem packLoop_chunk (a b c d : Nat) (rest : List Nat)
    (ha : a < 4) (hb : b < 4) (hc : c < 4) (hd : d < 4) :
    packLoop (a :: b :: c :: d :: rest) 0 0 =
      (a * 64 + b * 16 + c * 4 + d) :: packLoop rest 0 0 := by
  simp [packLoop]
  omega

theorem packLoop_one (a : Nat) (ha : a < 4) : packLoop [a] 0 0 = [a * 64] := by
  simp [packLoop]
  omega

theorem packLoop_two (a b : Nat) (ha : a < 4) (hb : b < 4) :
    packLoop [a, b] 0 0 = [a * 64 + b * 16] := by
  simp [packLoop]
  omega

theorem packLoop_three (a b c : Nat) (ha : a < 4) (hb : b < 4) (hc : c < 4) :
    packLoop [a, b, c] 0 0 = [a * 64 + b * 16 + c * 4] := by
  simp [packLoop]
  omega

theorem packLoop_eq_packSpec (codes : List Nat) (h : ∀ c ∈ codes, c < 4) :
    packLoop codes 0 0 = packSpec codes := by
  induction codes using packSpec.induct with
  | case1 a b c d rest ih =>
    rw [packLoop_chunk a b c d rest (h a (by simp)) (h b (by simp)) (h c (by simp))
      (h d (by simp)), packSpec, ih (fun x hx => h x (by simp [hx]))]
  | case2 a => rw [packLoop_one a (h a (by simp))]; rfl
  | case3 a b => rw [packLoop_two a b (h a (by simp)) (h b (by simp))]; rfl
  | case4 a b c =>
    rw [packLoop_three a b c (h a (by simp)) (h b (by simp)) (h c (by simp))]; rfl
  | case5 => rfl

theorem packSpec_length (codes : List Nat) :
    (packSpec codes).length = (codes.length + 3) / 4 := by
  induction codes using packSpec.induct with
  | case1 a b c d rest ih => simp [packSpec, ih]; omega
  | case2 a => simp [packSpec]
  | case3 a b => simp [packSpec]
  | case4 a b c => simp [packSpec]
  | case5 => rfl

theorem byteCodes_pack (a b c d : Nat) (ha : a < 4) (hb : b < 4) (hc : c < 4) (hd : d < 4) :
    byteCodes (a * 64 + b * 16 + c * 4 + d) = [a, b, c, d] := by
  simp only [byteCodes, List.cons.injEq, and_true]
  refine ⟨by omega, by omega, by omega, by omega⟩

theorem allCodes_packSpec_take (codes : List Nat) (h : ∀ c ∈ codes, c < 4) :
    (allCodes (packSpec codes)).take codes.length = codes := by
  induction codes using packSpec.induct with
  | case1 a b c d rest ih =>
    rw [packSpec]
    simp only [allCodes, List.flatMap_cons] at *
    rw [byteCodes_pack a b c d (h a (by simp)) (h b (by simp)) (h c (by simp)) (h d (by simp))]
    simp only [List.length_cons, List.cons_append, List.take_succ_cons, List.nil_append]
    rw [ih (fun x hx => h x (by simp [hx]))]
  | case2 a =>
    have ha := h a (by simp)
    simp [packSpec, allCodes, byteCodes]
    omega
  | case3 a b =>
    have ha := h a (by simp)
    have hb := h b (by simp)
    simp [packSpec, allCodes, byteCodes, List.take_succ_cons]
    refine ⟨by omega, by omega⟩
  | case4 a b c =>
    have ha := h a (by simp)
    have hb := h b (by simp)
    have hc := h c (by simp)
    simp [packSpec, allCodes, byteCodes, List.take_succ_cons]
    refine ⟨by omega, by omega, by omega⟩
  | case5 => rfl


theorem wrapBody_append (l1 l2 : List Char) (w : Nat) :
    wrapBody (l1 ++ l2) w = wrapBody l1 w ++ wrapBody l2 (w + l1.length) := by
  induction l1 generalizing w with
  | nil => simp [wrapBody]
  | cons c cs ih =>
    simp only [List.cons_append, wrapBody, List.length_cons, List.append_eq]
    rw [ih]
    have h : w + 1 + cs.length = w + (cs.length + 1) := by omega
    rw [h]
    split <;> simp

theorem byteCodes_eq_shifts (b : Nat) :
    [6, 4, 2, 0].map (fun s => b / 2 ^ s % 4) = byteCodes b := by
  simp [byteCodes]

theorem decodeShifts_spec (ss : List Nat) (byte seqlen ty written : Nat) :
    decodeShifts ss byte seqlen ty written =
      (wrapBody (((ss.map (fun s => byte / 2 ^ s % 4)).take (seqlen - written)).map
          (fun b => bits_to_base b ty)) written,
       written + min (seqlen - written) ss.length) := by
  induction ss generalizing written with
  | nil => simp [decodeShifts, wrapBody]
  | cons s ss ih =>
    simp only [decodeShifts]
    split
    · rename_i hlt
      rw [ih (written + 1)]
      have htake : (seqlen - written) = (seqlen - (written + 1)) + 1 := by omega
      rw [htake]
      simp only [List.map_cons, List.take_succ_cons, wrapBody, List.length_cons,
        Prod.mk.injEq]
      exact ⟨trivial, by omega⟩
    · rename_i hge
      have h0 : seqlen - written = 0 := by omega
      simp [h0, wrapBody]

theorem decodeBytes_spec (bytes : List Nat) (seqlen ty written : Nat) :
    decodeBytes bytes seqlen ty written =
      (wrapBody (((allCodes bytes).take (seqlen - written)).map
          (fun b => bits_to_base b ty)) written,
       written + min (seqlen - written) (4 * bytes.length)) := by
  induction bytes generalizing written with
  | nil => simp [decodeBytes, allCodes, wrapBody]
  | cons b bs ih =>
    simp only [decodeBytes]
    split
    · rename_i hlt
      have hlen4 : ([6, 4, 2, 0] : List Nat).length = 4 := rfl
      simp only [decodeShifts_spec, byteCodes_eq_shifts, ih, hlen4]
      have hbc : (byteCodes b).length = 4 := by simp [byteCodes]
      have hcodes : allCodes (b :: bs) = byteCodes b ++ allCodes bs := by
        simp [allCodes]
      rw [hcodes, List.take_append_eq_append_take, hbc, List.map_append,
        wrapBody_append]
      have hsub : (seqlen - written) - 4 = seqlen - (written + min (seqlen - written) 4) := by
        omega
      have hlen : (((byteCodes b).take (seqlen - written)).map
          (fun b => bits_to_base b ty)).length = min (seqlen - written) 4 := by
        simp [hbc]
      rw [hsub, hlen]
      simp only [Prod.mk.injEq, List.length_cons]
      exact ⟨trivial, by omega⟩
    · rename_i hge
      have h0 : seqlen - written = 0 := by omega
      simp [h0, wrapBody]

theorem pow_256_4 : (256 : Nat) ^ 4 = 2 ^ 32 := by norm_num

theorem pow_256_8 : (256 : Nat) ^ 8 = 2 ^ 64 := by norm_num

theorem decode_mkContainer (meta : List Nat) (ty seqlen : Nat) (payload : List Nat)
    (hm : meta.length < 2 ^ 32) (hs : seqlen < 2 ^ 64) :
    decode_seq_to_fasta (mkContainer meta ty seqlen payload) =
      .ok ((meta.takeWhile (fun b => b ≠ 0)).map Char.ofNat ++
        '\n' :: (decodeBytes payload seqlen ty 0).1 ++
        (if (decodeBytes payload seqlen ty 0).2 % 60 = 0 then [] else ['\n'])) := by
  have e0 : mkContainer meta ty seqlen payload =
      SEQ_SIGNATURE ++ ([VERSION] ++ (leBytes 4 meta.length ++
        (meta ++ (ty :: (leBytes 8 seqlen ++ payload))))) := by
    simp [mkContainer, List.append_assoc]
  have elen : (mkContainer meta ty seqlen payload).length =
      18 + meta.length + payload.length := by
    rw [e0]
    simp [SEQ_SIGNATURE, VERSION, leBytes_length]
    omega
  have ez : 4 - (mkContainer meta ty seqlen payload).length = 0 := by
    rw [elen]; omega
  have etake : (mkContainer meta ty seqlen payload).take 4 = SEQ_SIGNATURE := by
    rw [e0]; exact List.take_left' rfl
  have ed4 : List.drop 4 (SEQ_SIGNATURE ++ ([VERSION] ++ (leBytes 4 meta.length ++
      (meta ++ (ty :: (leBytes 8 seqlen ++ payload)))))) =
      [VERSION] ++ (leBytes 4 meta.length ++ (meta ++ (ty :: (leBytes 8 seqlen ++ payload)))) :=
    List.drop_left' rfl
  have edrop : ((mkContainer meta ty seqlen payload).drop 4).drop 1 =
      leBytes 4 meta.length ++ (meta ++ (ty :: (leBytes 8 seqlen ++ payload))) := by
    rw [e0, ed4]
    rfl
  have hr1len : ¬ ((leBytes 4 meta.length ++
      (meta ++ (ty :: (leBytes 8 seqlen ++ payload)))).length < 4) := by
    simp [leBytes_length]
  have hr1take : fromLE ((leBytes 4 meta.length ++
      (meta ++ (ty :: (leBytes 8 seqlen ++ payload)))).take 4) = meta.length := by
    rw [List.take_left' (leBytes_length 4 _)]
    exact fromLE_leBytes_of_lt (by rw [pow_256_4]; exact hm)
  have hr2 : (leBytes 4 meta.length ++
      (meta ++ (ty :: (leBytes 8 seqlen ++ payload)))).drop 4 =
      meta ++ (ty :: (leBytes 8 seqlen ++ payload)) :=
    List.drop_left' (leBytes_length 4 _)
  have hr2len : ¬ ((meta ++ (ty :: (leBytes 8 seqlen ++ payload))).length < meta.length) := by
    simp
  have hr2take : (meta ++ (ty :: (leBytes 8 seqlen ++ payload))).take meta.length = meta :=
    List.take_left _ _
  have hr2drop : (meta ++ (ty :: (leBytes 8 seqlen ++ payload))).drop meta.length =
      ty :: (leBytes 8 seqlen ++ payload) :=
    List.drop_left _ _
  have hr3len : ¬ ((ty :: (leBytes 8 seqlen ++ payload)).length < 1) := by simp
  have hr4len : ¬ ((leBytes 8 seqlen ++ payload).length < 8) := by
    simp [leBytes_length]
  have hr4take : fromLE ((leBytes 8 seqlen ++ payload).take 8) = seqlen := by
    rw [List.take_left' (leBytes_length 8 _)]
    exact fromLE_leBytes_of_lt (by rw [pow_256_8]; exact hs)
  have hr4drop : (leBytes 8 seqlen ++ payload).drop 8 = payload :=
    List.drop_left' (leBytes_length 8 _)
  simp only [decode_seq_to_fasta, etake, ez, List.replicate_zero, List.append_nil, ne_eq,
    eq_self_iff_true, not_true, if_false, edrop, if_neg hr1len, hr1take, hr2,
    if_neg hr2len, hr2take, hr2drop, List.headD_cons,
    List.drop_succ_cons, List.drop_zero, if_neg hr3len, if_neg hr4len, hr4take, hr4drop]

theorem encodeCodes_length {l : List Char} {bs : List Nat}
    (h : encodeCodes l = some bs) : bs.length = l.length := by
  induction l generalizing bs with
  | nil => simp [encodeCodes] at h; subst h; rfl
  | cons c cs ih =>
    simp only [encodeCodes] at h
    rcases hb : base_to_bits c with _ | b <;> rw [hb] at h
    · exact absurd h (by simp)
    · rcases he : encodeCodes cs with _ | es <;> rw [he] at h
      · exact absurd h (by simp)
      · simp only [Option.some.injEq] at h
        subst h
        simp [ih he]

theorem base_to_bits_lt4 {c : Char} {b : Nat} (h : base_to_bits c = some b) : b < 4 := by
  simp only [base_to_bits] at h
  split_ifs at h <;> simp only [Option.some.injEq] at h <;> omega

theorem encodeCodes_lt4 {l : List Char} {bs : List Nat}
    (h : encodeCodes l = some bs) : ∀ b ∈ bs, b < 4 := by
  induction l generalizing bs with
  | nil => simp [encodeCodes] at h; subst h; simp
  | cons c cs ih =>
    simp only [encodeCodes] at h
    rcases hb : base_to_bits c with _ | b <;> rw [hb] at h
    · exact absurd h (by simp)
    · rcases he : encodeCodes cs with _ | es <;> rw [he] at h
      · exact absurd h (by simp)
      · simp only [Option.some.injEq] at h
        subst h
        intro x hx
        rcases List.mem_cons.mp hx with rfl | hx2
        · exact base_to_bits_lt4 hb
        · exact ih he x hx2

theorem allCodes_length (bytes : List Nat) : (allCodes bytes).length = 4 * bytes.length := by
  induction bytes with
  | nil => rfl
  | cons b bs ih =>
    simp only [allCodes, List.flatMap_cons, List.length_append] at *
    simp [byteCodes, ih]
    omega

theorem map_eq_self_of_mem {l : List α} {f : α → α} (h : ∀ c ∈ l, f c = c) :
    l.map f = l := by
  induction l with
  | nil => rfl
  | cons c cs ih =>
    simp only [List.map_cons, h c (by simp), ih (fun x hx => h x (by simp [hx]))]

theorem takeWhile_all {l : List α} {p : α → Bool} (h : ∀ c ∈ l, p c = true) :
    l.takeWhile p = l := by
  induction l with
  | nil => rfl
  | cons c cs ih =>
    simp [List.takeWhile_cons, h c (by simp), ih (fun x hx => h x (by simp [hx]))]

theorem cleanSeq_length_le (seq : List Char) : (cleanSeq seq).length ≤ seq.length := by
  calc (cleanSeq seq).length ≤ (seq.map cToUpper).length :=
        List.length_filterMap_le _ _
    _ = seq.length := List.length_map _ _

theorem cleanSeq_of_alpha {seq : List Char}
    (h : ∀ c ∈ seq, c = 'A' ∨ c = 'C' ∨ c = 'G' ∨ c = 'T' ∨ c = 'U') :
    cleanSeq seq = seq.map (fun c => if c = 'U' then 'T' else c) := by
  induction seq with
  | nil => rfl
  | cons c cs ih =>
    have hc := h c (by simp)
    have ihcs := ih (fun x hx => h x (by simp [hx]))
    simp only [cleanSeq, List.map_cons, List.filterMap_cons] at *
    rcases hc with rfl | rfl | rfl | rfl | rfl <;> simp_all <;> rfl

theorem write_seq_file_total (desc seq : List Char) :
    ∃ cont, write_seq_file desc seq = some cont :=
  ⟨_, write_seq_file_eq desc seq⟩

theorem write_eq_mkContainer (desc seq : List Char) (hdlen : desc.length < 2 ^ 32) :
    write_seq_file desc seq = some (mkContainer (desc.map Char.toNat)
      (if detect_rna seq then TYPE_RNA else TYPE_DNA) (cleanSeq seq).length
      (packLoop ((cleanSeq seq).map (fun c => (base_to_bits c).getD 0)) 0 0)) := by
  rw [write_seq_file_eq]
  have h1 : desc.length % 2 ^ 32 = desc.length := Nat.mod_eq_of_lt hdlen
  have h2 : (desc.map Char.toNat).take (desc.length % 2 ^ 32) = desc.map Char.toNat := by
    rw [h1]
    exact List.take_of_length_le (by simp)
  rw [h2, mkContainer, List.length_map]

theorem stepLine_header_full (i d s : List Char) (line : List Char)
    (h : line.headD ' ' = '>') :
    stepLine ⟨some i, some d, some s⟩ line =
      ([(i, d, s)], ⟨some (headerId (truncAtCRLF line)), some (truncAtCRLF line), none⟩) := by
  have h2 : line.head?.getD ' ' = '>' := by simpa using h
  simp [stepLine, h2]

theorem stepLine_header_of_seq_none (st : ScanState) (line : List Char)
    (h : line.headD ' ' = '>') (hs : st.seq = none) :
    stepLine st line =
      ([], ⟨some (headerId (truncAtCRLF line)), some (truncAtCRLF line), none⟩) := by
  have h2 : line.head?.getD ' ' = '>' := by simpa using h
  rcases st with ⟨i, d, s⟩
  simp only at hs
  subst hs
  cases i <;> cases d <;> simp [stepLine, h2]

theorem stepLine_seqline (st : ScanState) (line : List Char)
    (h : ¬ line.headD ' ' = '>') :
    stepLine st line = ([], ⟨st.recId, st.desc, some (st.seq.getD [] ++ stripSeqLine line)⟩) := by
  have h2 : ¬ line.head?.getD ' ' = '>' := by simpa using h
  simp [stepLine, h2]

theorem scan_body_aux (body : List (List Char))
    (hb : ∀ l ∈ body, ¬ l.headD ' ' = '>') :
    ∀ (rest : List (List Char)) (i d : Option (List Char)) (acc : List Char),
    scanLines (body ++ rest) ⟨i, d, some acc⟩ =
      scanLines rest ⟨i, d, some (acc ++ (body.map stripSeqLine).flatten)⟩ := by
  induction body with
  | nil => intro rest i d acc; simp
  | cons l ls ih =>
    intro rest i d acc
    rw [List.cons_append, scanLines,
      stepLine_seqline _ _ (hb l (by simp))]
    simp only [Option.getD_some, List.nil_append]
    rw [ih (fun x hx => hb x (by simp [hx])) rest i d (acc ++ stripSeqLine l)]
    simp [List.append_assoc]

theorem scan_body_from_none (body : List (List Char)) (hne : body ≠ [])
    (hb : ∀ l ∈ body, ¬ l.headD ' ' = '>') (rest : List (List Char))
    (i d : Option (List Char)) :
    ∃ acc, scanLines (body ++ rest) ⟨i, d, none⟩ = scanLines rest ⟨i, d, some acc⟩ := by
  cases body with
  | nil => exact absurd rfl hne
  | cons l ls =>
    refine ⟨[] ++ stripSeqLine l ++ (ls.map stripSeqLine).flatten, ?_⟩
    rw [List.cons_append, scanLines, stepLine_seqline _ _ (hb l (by simp))]
    simp only [Option.getD_none, List.nil_append]
    rw [scan_body_aux ls (fun x hx => hb x (by simp [hx])) rest i d (stripSeqLine l)]

theorem scan_full_records (recs : List (List Char × List (List Char)))
    (hh : ∀ r ∈ recs, r.1.headD ' ' = '>')
    (hb : ∀ r ∈ recs, r.2 ≠ [] ∧ ∀ l ∈ r.2, ¬ l.headD ' ' = '>') :
    ∀ i d s, (scanLines (recs.flatMap (fun r => r.1 :: r.2)) ⟨some i, some d, some s⟩).length =
      recs.length + 1 := by
  induction recs with
  | nil => intro i d s; rfl
  | cons r rs ih =>
    intro i d s
    rw [List.flatMap_cons, List.cons_append, scanLines,
      stepLine_header_full i d s r.1 (hh r (by simp))]
    obtain ⟨acc, hacc⟩ := scan_body_from_none r.2 (hb r (by simp)).1
      (fun l hl => (hb r (by simp)).2 l hl) (rs.flatMap (fun r => r.1 :: r.2))
      (some (headerId (truncAtCRLF r.1))) (some (truncAtCRLF r.1))
    simp only [hacc]
    rw [List.length_append]
    rw [ih (fun x hx => hh x (by simp [hx])) (fun x hx => hb x (by simp [hx]))]
    simp
    omega

theorem stepLine_header (st : ScanState) (line : List Char)
    (h : line.headD ' ' = '>')
    (hgood : st.seq = none ∨ (st.recId.isSome ∧ st.desc.isSome)) :
    stepLine st line = (scanLines [] st,
      ⟨some (headerId (truncAtCRLF line)), some (truncAtCRLF line), none⟩) := by
  have h2 : line.head?.getD ' ' = '>' := by simpa using h
  rcases st with ⟨i, d, s⟩
  rcases hgood with hs | ⟨hi, hd⟩
  · simp only at hs
    subst hs
    cases i <;> cases d <;> simp [stepLine, scanLines, h2]
  · rcases i with _ | i
    · simp at hi
    rcases d with _ | d
    · simp at hd
    cases s <;> simp [stepLine, scanLines, h2]

theorem scanLines_cons (l : List Char) (ls : List (List Char)) (st : ScanState) :
    scanLines (l :: ls) st = (stepLine st l).1 ++ scanLines ls (stepLine st l).2 := rfl

theorem scan_count : ∀ (recs : List (List Char × List (List Char))),
    (∀ r ∈ recs, r.1.headD ' ' = '>') →
    (∀ r ∈ recs, ∀ l ∈ r.2, ¬ l.headD ' ' = '>') →
    ∀ st : ScanState, (st.seq = none ∨ (st.recId.isSome ∧ st.desc.isSome)) →
    (scanLines (recs.flatMap (fun r => r.1 :: r.2)) st).length =
      (recs.filter (fun r => !r.2.isEmpty)).length + (scanLines [] st).length := by
  intro recs
  induction recs with
  | nil =>
    intro _ _ st _
    simp
  | cons r rs ih =>
    intro hh hb st hgood
    rw [List.flatMap_cons, List.cons_append, scanLines_cons,
      stepLine_header st r.1 (hh r (by simp)) hgood]
    rcases hr2 : r.2 with _ | ⟨l, ls⟩
    · simp only [List.nil_append, List.length_append]
      rw [ih (fun x hx => hh x (by simp [hx])) (fun x hx => hb x (by simp [hx]))
        ⟨some (headerId (truncAtCRLF r.1)), some (truncAtCRLF r.1), none⟩ (Or.inl rfl)]
      simp [List.filter_cons, hr2, scanLines]
      omega
    · obtain ⟨acc, hacc⟩ := scan_body_from_none r.2 (by rw [hr2]; simp)
        (fun x hx => hb r (by simp) x hx) (rs.flatMap (fun x => x.1 :: x.2))
        (some (headerId (truncAtCRLF r.1))) (some (truncAtCRLF r.1))
      rw [hr2] at hacc
      simp only [List.length_append, hacc]
      rw [ih (fun x hx => hh x (by simp [hx])) (fun x hx => hb x (by simp [hx]))
        ⟨some (headerId (truncAtCRLF r.1)), some (truncAtCRLF r.1), some acc⟩
        (Or.inr ⟨by simp, by simp⟩)]
      simp [List.filter_cons, hr2, scanLines]
      omega

theorem meta_roundtrip (desc : List Char) (hd0 : ∀ c ∈ desc, c.toNat ≠ 0) :
    ((desc.map Char.toNat).takeWhile (fun b => b ≠ 0)).map Char.ofNat = desc := by
  rw [takeWhile_all]
  · rw [List.map_map]
    exact map_eq_self_of_mem (fun c _ => Char.ofNat_toNat c)
  · intro x hx
    obtain ⟨c, hc, rfl⟩ := List.mem_map.mp hx
    simpa using hd0 c hc

theorem metadataField_mkContainer (m : List Nat) (ty sl : Nat) (p : List Nat)
    (hm : m.length < 2 ^ 32) :
    metadataField (mkContainer m ty sl p) = m := by
  have e5 : mkContainer m ty sl p =
      (SEQ_SIGNATURE ++ [VERSION]) ++ (leBytes 4 m.length ++
        (m ++ (ty :: (leBytes 8 sl ++ p)))) := by
    simp [mkContainer, List.append_assoc]
  have e9 : mkContainer m ty sl p =
      ((SEQ_SIGNATURE ++ [VERSION]) ++ leBytes 4 m.length) ++
        (m ++ (ty :: (leBytes 8 sl ++ p))) := by
    simp [mkContainer, List.append_assoc]
  have h5 : (mkContainer m ty sl p).drop 5 =
      leBytes 4 m.length ++ (m ++ (ty :: (leBytes 8 sl ++ p))) := by
    rw [e5]
    exact List.drop_left' rfl
  have h9 : (mkContainer m ty sl p).drop 9 = m ++ (ty :: (leBytes 8 sl ++ p)) := by
    rw [e9]
    refine List.drop_left' ?_
    simp [SEQ_SIGNATURE, VERSION, leBytes_length]
  rw [metadataField, h5, h9, List.take_left' (leBytes_length 4 _),
    fromLE_leBytes_of_lt (by rw [pow_256_4]; exact hm), List.take_left]

/-- Claim C7: `base_to_bits` maps 'A' to 0b00, 'C' to 0b01, 'G' to 0b10 and
'T' or 'U' to 0b11, and exits fatally (`none`) on every other character,
never substituting a default base. -/
theorem C7_base_codec_mapping :
    base_to_bits 'A' = some 0 ∧ base_to_bits 'C' = some 1 ∧ base_to_bits 'G' = some 2 ∧
    base_to_bits 'T' = some 3 ∧ base_to_bits 'U' = some 3 ∧
    (∀ c : Char, c ≠ 'A' → c ≠ 'C' → c ≠ 'G' → c ≠ 'T' → c ≠ 'U' →
      base_to_bits c = none) := by
  refine ⟨by decide, by decide, by decide, by decide, by decide, ?_⟩
  intro c h1 h2 h3 h4 h5
  simp [base_to_bits, h1, h2, h3, h4, h5]

/-- Witness for C7 at the concrete invalid base 'N'. -/
theorem C7_witness : base_to_bits 'N' = none :=
  C7_base_codec_mapping.2.2.2.2.2 'N' (by decide) (by decide) (by decide) (by decide)
    (by decide)

/-- Claim C4: the stored type tag is RNA exactly when the original pre-cleaning
text contains 'u' or 'U' (else DNA), and code 0b11 decodes to 'U' under
`TYPE_RNA` and to 'T' under `TYPE_DNA`. -/
theorem C4_type_determinism (seq : List Char) (bits : Nat) (h3 : bits % 4 = 3) :
    ((if detect_rna seq then TYPE_RNA else TYPE_DNA) = TYPE_RNA ↔
      ('u' ∈ seq ∨ 'U' ∈ seq)) ∧
    ((if detect_rna seq then TYPE_RNA else TYPE_DNA) = TYPE_DNA ↔
      ¬('u' ∈ seq ∨ 'U' ∈ seq)) ∧
    bits_to_base bits TYPE_RNA = 'U' ∧ bits_to_base bits TYPE_DNA = 'T' := by
  refine ⟨?_, ?_, ?_, ?_⟩
  · rw [← detect_rna_iff]
    cases hdet : detect_rna seq <;> simp [hdet, TYPE_RNA, TYPE_DNA]
  · rw [← detect_rna_iff]
    cases hdet : detect_rna seq <;> simp [hdet, TYPE_RNA, TYPE_DNA]
  · simp [bits_to_base, h3, TYPE_RNA]
  · simp [bits_to_base, h3, TYPE_RNA, TYPE_DNA]

/-- Witness for C4 at `seq = ['u']` and `bits = 7`. -/
theorem C4_witness :
    ((if detect_rna ['u'] then TYPE_RNA else TYPE_DNA) = TYPE_RNA ↔
      ('u' ∈ ['u'] ∨ 'U' ∈ ['u'])) ∧
    ((if detect_rna ['u'] then TYPE_RNA else TYPE_DNA) = TYPE_DNA ↔
      ¬('u' ∈ ['u'] ∨ 'U' ∈ ['u'])) ∧
    bits_to_base 7 TYPE_RNA = 'U' ∧ bits_to_base 7 TYPE_DNA = 'T' :=
  C4_type_determinism ['u'] 7 (by decide)

/-- Claim C5: for a cleaned sequence whose codes are `codes`, the payload the
writer emits is exactly `ceil(seq_len / 4)` bytes, equal to the chunked
MSB-first packing `packSpec` (whose final partial byte is zero-padded in
its low-order bits), and exactly `seq_len / 4` bytes — no padding byte —
when `seq_len` is a multiple of 4. -/
theorem C5_payload_sizing (seq : List Char) (codes : List Nat)
    (h : encodeCodes (cleanSeq seq) = some codes) :
    (packLoop codes 0 0).length = ((cleanSeq seq).length + 3) / 4 ∧
    packLoop codes 0 0 = packSpec codes ∧
    ((cleanSeq seq).length % 4 = 0 →
      (packLoop codes 0 0).length = (cleanSeq seq).length / 4) := by
  have hlt := encodeCodes_lt4 h
  have hlen := encodeCodes_length h
  rw [packLoop_eq_packSpec codes hlt, packSpec_length, hlen]
  exact ⟨rfl, rfl, fun hm => by omega⟩

/-- Witness for C5 at the concrete sequence "ACGTA" (five bases, two
payload bytes). -/
theorem C5_witness :
    (packLoop [0, 1, 2, 3, 0] 0 0).length = ((cleanSeq ['A', 'C', 'G', 'T', 'A']).length + 3) / 4 ∧
    packLoop [0, 1, 2, 3, 0] 0 0 = packSpec [0, 1, 2, 3, 0] ∧
    ((cleanSeq ['A', 'C', 'G', 'T', 'A']).length % 4 = 0 →
      (packLoop [0, 1, 2, 3, 0] 0 0).length = (cleanSeq ['A', 'C', 'G', 'T', 'A']).length / 4) :=
  C5_payload_sizing ['A', 'C', 'G', 'T', 'A'] [0, 1, 2, 3, 0] (by decide)

/-- Claim C3 (code bug): a container with a valid signature and complete header
that declares `seq_len = 8` but carries a single payload byte is not
rejected — the decoder silently emits the four bases of the one byte and
stops, while a wrong signature is rejected fatally. -/
theorem C3_truncation_not_rejected :
    decode_seq_to_fasta
        [83, 69, 81, 1, 1, 4, 0, 0, 0, 65, 66, 67, 68, 1, 8, 0, 0, 0, 0, 0, 0, 0, 27] =
      .ok ['A', 'B', 'C', 'D', '\n', 'A', 'C', 'G', 'T', '\n'] ∧
    decode_seq_to_fasta [88, 88, 88, 88] = .fatal :=
  ⟨by decide, by decide⟩

/-- Claim C8: a FASTA input made of N records, each a marker line followed by at
least one non-marker line, produces exactly N `write_seq_file` calls. -/
theorem C8_record_count (recs : List (List Char × List (List Char)))
    (hh : ∀ r ∈ recs, r.1.headD ' ' = '>')
    (hb : ∀ r ∈ recs, r.2 ≠ [] ∧ ∀ l ∈ r.2, ¬ l.headD ' ' = '>') :
    (parse_fasta (recs.flatMap (fun r => r.1 :: r.2))).length = recs.length := by
  cases recs with
  | nil => rfl
  | cons r rs =>
    rw [List.flatMap_cons, List.cons_append, parse_fasta, scanLines,
      stepLine_header_of_seq_none initScan r.1 (hh r (by simp)) rfl]
    obtain ⟨acc, hacc⟩ := scan_body_from_none r.2 (hb r (by simp)).1
      (fun l hl => (hb r (by simp)).2 l hl) (rs.flatMap (fun x => x.1 :: x.2))
      (some (headerId (truncAtCRLF r.1))) (some (truncAtCRLF r.1))
    simp only [List.nil_append, hacc]
    rw [scan_full_records rs (fun x hx => hh x (by simp [hx]))
      (fun x hx => hb x (by simp [hx]))]
    simp

/-- Witness for C8 at a concrete two-record FASTA. -/
theorem C8_witness :
    (parse_fasta ([(['>', 'a'], [['A', '\n']]), (['>', 'b'], [['C', '\n']])].flatMap
      (fun r => r.1 :: r.2))).length =
      ([(['>', 'a'], [['A', '\n']]), (['>', 'b'], [['C', '\n']])] :
        List (List Char × List (List Char))).length :=
  C8_record_count [(['>', 'a'], [['A', '\n']]), (['>', 'b'], [['C', '\n']])]
    (by decide) (by decide)

/-- Claim C10 counterexample: a bodiless header does NOT always produce
no binary file.  With an orphan sequence line before the first marker,
the scanner's leaked sequence buffer (freed and NULLed only inside the
flush branch, dna.c:129-136) makes the bodiless header `">x"` — which is
followed immediately by the header `">y"` — flush the record
`("x", ">x", "AC")`, so `x.seq` is created. -/
theorem C10_counterexample :
    parse_fasta [['A', 'C'], ['>', 'x'], ['>', 'y'], ['G']] =
      [(['x'], ['>', 'x'], ['A', 'C']), (['y'], ['>', 'y'], ['G'])] ∧
    (['x'], ['>', 'x'], ['A', 'C']) ∈
      parse_fasta [['A', 'C'], ['>', 'x'], ['>', 'y'], ['G']] :=
  ⟨by decide, by decide⟩

/-- Claim C10 as amended: in a marker-led FASTA input (a sequence of
records, each a marker line followed by zero or more non-marker lines,
with no orphan lines before the first marker), `parse_fasta` flushes
exactly one record per header that is followed by at least one non-header
line (even a blank one, which allocates the buffer); a header followed by
zero non-header lines before the next marker or end of input is silently
dropped, anywhere in the input — it produces no binary file and no
error. -/
theorem C10_bodiless_records_dropped (recs : List (List Char × List (List Char)))
    (hh : ∀ r ∈ recs, r.1.headD ' ' = '>')
    (hb : ∀ r ∈ recs, ∀ l ∈ r.2, ¬ l.headD ' ' = '>') :
    (parse_fasta (recs.flatMap (fun r => r.1 :: r.2))).length =
      (recs.filter (fun r => !r.2.isEmpty)).length := by
  have h := scan_count recs hh hb initScan (Or.inl rfl)
  simpa [parse_fasta, scanLines, initScan] using h

/-- Witness for the amended C10: of three headers, the middle one is
bodiless and is dropped; the two bodied ones each produce a record. -/
theorem C10_bodiless_witness :
    (parse_fasta ([(['>', 'a'], [['A']]), (['>', 'x'], []), (['>', 'y'], [['G']])].flatMap
      (fun r => r.1 :: r.2))).length =
      (([(['>', 'a'], [['A']]), (['>', 'x'], []), (['>', 'y'], [['G']])] :
          List (List Char × List (List Char))).filter (fun r => !r.2.isEmpty)).length :=
  C10_bodiless_records_dropped
    [(['>', 'a'], [['A']]), (['>', 'x'], []), (['>', 'y'], [['G']])]
    (by decide) (by decide)

/-- Claim C6: on a well-formed container (payload of exactly `ceil(seq_len/4)`
bytes) the decoder extracts the four 2-bit codes of each byte high-to-low,
emits exactly `seq_len` bases (padding bits are never emitted), wraps at
60 bases per line, and ends the base text with a newline when the last
line is short. -/
theorem C6_decode_payload (meta : List Nat) (ty seqlen : Nat) (payload : List Nat)
    (hm : meta.length < 2 ^ 32) (hs : seqlen < 2 ^ 31)
    (hp : payload.length = (seqlen + 3) / 4) :
    decode_seq_to_fasta (mkContainer meta ty seqlen payload) =
      .ok ((meta.takeWhile (fun b => b ≠ 0)).map Char.ofNat ++
        '\n' :: wrap60 (((allCodes payload).take seqlen).map (fun b => bits_to_base b ty))) := by
  rw [decode_mkContainer meta ty seqlen payload hm (by omega), decodeBytes_spec]
  have hmin : min seqlen (4 * payload.length) = seqlen := by
    rw [hp]; omega
  have hL : (((allCodes payload).take seqlen).map (fun b => bits_to_base b ty)).length =
      seqlen := by
    rw [List.length_map, List.length_take, allCodes_length, hp]
    omega
  rw [wrap60]
  simp only [Nat.sub_zero, Nat.zero_add, hmin, hL]
  simp [List.append_assoc]

/-- Witness for C6 at the spec's end-to-end example payload. -/
theorem C6_witness :
    decode_seq_to_fasta (mkContainer [65] 2 5 [27, 192]) =
      .ok (([65].takeWhile (fun b => b ≠ 0)).map Char.ofNat ++
        '\n' :: wrap60 (((allCodes [27, 192]).take 5).map (fun b => bits_to_base b 2))) :=
  C6_decode_payload [65] 2 5 [27, 192] (by decide) (by decide) (by decide)

/-- Claim C9: a sequence that cleans to nothing gives `seq_len = 0`, a payload of
zero bytes, and a decode that emits only the header line and its single
trailing newline. -/
theorem C9_empty_sequence (desc seq : List Char) (cont : List Nat)
    (hw : write_seq_file desc seq = some cont)
    (hd0 : ∀ c ∈ desc, c.toNat ≠ 0) (hdlen : desc.length < 2 ^ 32)
    (hempty : cleanSeq seq = []) :
    cont = mkContainer (desc.map Char.toNat)
      (if detect_rna seq then TYPE_RNA else TYPE_DNA) 0 [] ∧
    decode_seq_to_fasta cont = .ok (desc ++ ['\n']) := by
  rw [write_eq_mkContainer desc seq hdlen, hempty] at hw
  simp only [List.length_nil, List.map_nil, Option.some.injEq] at hw
  have hpack : packLoop ([] : List Nat) 0 0 = [] := rfl
  rw [hpack] at hw
  subst hw
  refine ⟨rfl, ?_⟩
  rw [decode_mkContainer _ _ _ _ (by simpa using hdlen) (by omega),
    meta_roundtrip desc hd0]
  simp [decodeBytes]

/-- Witness for C9 at a concrete empty sequence. -/
theorem C9_witness :
    [83, 69, 81, 1, 1, 1, 0, 0, 0, 100, 1, 0, 0, 0, 0, 0, 0, 0, 0] =
      mkContainer (['d'].map Char.toNat)
        (if detect_rna [] then TYPE_RNA else TYPE_DNA) 0 [] ∧
    decode_seq_to_fasta [83, 69, 81, 1, 1, 1, 0, 0, 0, 100, 1, 0, 0, 0, 0, 0, 0, 0, 0] =
      .ok (['d'] ++ ['\n']) :=
  C9_empty_sequence ['d'] [] _ (by decide) (by decide) (by decide) (by decide)

/-- Claim C2 counterexample: for the record scanned from the FASTA lines
`">s1 d"` / `"AC"`, the metadata stored in the container is the full
header text INCLUDING the leading marker, not the text without it as the
claim states. -/
theorem C2_counterexample :
    parse_fasta [['>', 's', '1', ' ', 'd', '\n'], ['A', 'C', '\n']] =
      [(['s', '1'], ['>', 's', '1', ' ', 'd'], ['A', 'C'])] ∧
    metadataField ((write_seq_file ['>', 's', '1', ' ', 'd'] ['A', 'C']).getD []) =
      ['>', 's', '1', ' ', 'd'].map Char.toNat ∧
    ['>', 's', '1', ' ', 'd'].map Char.toNat ≠ ['s', '1', ' ', 'd'].map Char.toNat :=
  ⟨by decide, by decide, by decide⟩

/-- Claim C2 as amended: the scanner keeps the marker character in `desc`, the
container's metadata field stores those `desc` bytes unchanged (marker
included), and the decoder re-emits the stored metadata verbatim as the
header line without prepending another marker. -/
theorem C2_metadata_with_marker (line : List Char) (st : ScanState)
    (desc seq : List Char) (cont : List Nat) (meta : List Nat)
    (ty seqlen : Nat) (payload : List Nat)
    (hline : line.headD ' ' = '>')
    (hdlen : desc.length < 2 ^ 32)
    (hw : write_seq_file desc seq = some cont)
    (hm : meta.length < 2 ^ 32) (hsl : seqlen < 2 ^ 64) :
    (stepLine st line).2.desc = some (truncAtCRLF line) ∧
    (truncAtCRLF line).headD ' ' = '>' ∧
    metadataField cont = desc.map Char.toNat ∧
    decode_seq_to_fasta (mkContainer meta ty seqlen payload) =
      .ok ((meta.takeWhile (fun b => b ≠ 0)).map Char.ofNat ++
        '\n' :: (decodeBytes payload seqlen ty 0).1 ++
        (if (decodeBytes payload seqlen ty 0).2 % 60 = 0 then [] else ['\n'])) := by
  refine ⟨?_, ?_, ?_, decode_mkContainer meta ty seqlen payload hm hsl⟩
  · have h2 : line.head?.getD ' ' = '>' := by simpa using hline
    simp [stepLine, h2]
  · cases line with
    | nil => exact absurd hline (by decide)
    | cons c t =>
      have hc : c = '>' := by simpa using hline
      subst hc
      simp [truncAtCRLF, List.takeWhile_cons]
  · rw [write_eq_mkContainer desc seq hdlen] at hw
    simp only [Option.some.injEq] at hw
    subst hw
    exact metadataField_mkContainer _ _ _ _ (by simpa using hdlen)

/-- Witness for the amended C2 at concrete inputs. -/
theorem C2_amended_witness :
    (stepLine initScan ['>', 's']).2.desc = some (truncAtCRLF ['>', 's']) ∧
    (truncAtCRLF ['>', 's']).headD ' ' = '>' ∧
    metadataField [83, 69, 81, 1, 1, 2, 0, 0, 0, 62, 100, 1, 1, 0, 0, 0, 0, 0, 0, 0, 0] =
      ['>', 'd'].map Char.toNat ∧
    decode_seq_to_fasta (mkContainer [65] 1 0 []) =
      .ok (([65].takeWhile (fun b => b ≠ 0)).map Char.ofNat ++
        '\n' :: (decodeBytes [] 0 1 0).1 ++
        (if (decodeBytes [] 0 1 0).2 % 60 = 0 then [] else ['\n'])) :=
  C2_metadata_with_marker ['>', 's'] initScan ['>', 'd'] ['A']
    [83, 69, 81, 1, 1, 2, 0, 0, 0, 62, 100, 1, 1, 0, 0, 0, 0, 0, 0, 0, 0]
    [65] 1 0 [] (by decide) (by decide) (by decide) (by decide) (by decide)

/-- Claim C1: for a sequence over {A,C,G,T} (or {A,C,G,U}), decoding the
container written for it reproduces the cleaned, uppercased,
T/U-normalized-per-type text — which under these alphabets is the
sequence itself — wrapped at 60 characters per line, with the original
description as the header line. -/
theorem C1_roundtrip (desc seq : List Char) (cont : List Nat)
    (hw : write_seq_file desc seq = some cont)
    (hd0 : ∀ c ∈ desc, c.toNat ≠ 0)
    (hdlen : desc.length < 2 ^ 32)
    (hslen : seq.length < 2 ^ 31)
    (halpha : (∀ c ∈ seq, c = 'A' ∨ c = 'C' ∨ c = 'G' ∨ c = 'T') ∨
              (∀ c ∈ seq, c = 'A' ∨ c = 'C' ∨ c = 'G' ∨ c = 'U')) :
    decode_seq_to_fasta cont = .ok (desc ++ '\n' :: wrap60 seq) := by
  rw [write_eq_mkContainer desc seq hdlen] at hw
  simp only [Option.some.injEq] at hw
  subst hw
  set ty := if detect_rna seq then TYPE_RNA else TYPE_DNA with hty
  set codes := (cleanSeq seq).map (fun c => (base_to_bits c).getD 0) with hcodes
  have hsup : ∀ c ∈ seq, c = 'A' ∨ c = 'C' ∨ c = 'G' ∨ c = 'T' ∨ c = 'U' := by
    rcases halpha with h | h <;> intro c hc <;> rcases h c hc with rfl | rfl | rfl | rfl <;>
      simp
  have hclean : cleanSeq seq = seq.map (fun c => if c = 'U' then 'T' else c) :=
    cleanSeq_of_alpha hsup
  have hcl : (cleanSeq seq).length = seq.length := by rw [hclean]; simp
  have hcodes4 : ∀ b ∈ codes, b < 4 := by
    intro b hb
    rw [hcodes] at hb
    obtain ⟨c, hc, rfl⟩ := List.mem_map.mp hb
    rcases cleanSeq_mem hc with rfl | rfl | rfl | rfl <;> decide
  have hcodeslen : codes.length = (cleanSeq seq).length := by rw [hcodes]; simp
  have hpoint : ∀ c ∈ seq,
      bits_to_base ((base_to_bits (if c = 'U' then 'T' else c)).getD 0) ty = c := by
    rcases halpha with h | h
    · have hdet : detect_rna seq = false := by
        cases hdet2 : detect_rna seq
        · rfl
        · exfalso
          rcases (detect_rna_iff seq).mp hdet2 with hu | hU
          · rcases h 'u' hu with h' | h' | h' | h' <;> exact absurd h' (by decide)
          · rcases h 'U' hU with h' | h' | h' | h' <;> exact absurd h' (by decide)
      have hty2 : ty = TYPE_DNA := by rw [hty, hdet]; rfl
      rw [hty2]
      intro c hc
      rcases h c hc with rfl | rfl | rfl | rfl <;> decide
    · by_cases hU : 'U' ∈ seq
      · have hdet : detect_rna seq = true := (detect_rna_iff seq).mpr (Or.inr hU)
        have hty2 : ty = TYPE_RNA := by rw [hty, hdet]; rfl
        rw [hty2]
        intro c hc
        rcases h c hc with rfl | rfl | rfl | rfl <;> decide
      · have hdet : detect_rna seq = false := by
          cases hdet2 : detect_rna seq
          · rfl
          · exfalso
            rcases (detect_rna_iff seq).mp hdet2 with hu | hU2
            · rcases h 'u' hu with h' | h' | h' | h' <;> exact absurd h' (by decide)
            · exact hU hU2
        have hty2 : ty = TYPE_DNA := by rw [hty, hdet]; rfl
        rw [hty2]
        intro c hc
        rcases h c hc with rfl | rfl | rfl | rfl
        · decide
        · decide
        · decide
        · exact absurd hc hU
  have hmapdec : codes.map (fun b => bits_to_base b ty) = seq := by
    rw [hcodes, hclean, List.map_map, List.map_map]
    exact map_eq_self_of_mem (by simpa using hpoint)
  have hs64 : (cleanSeq seq).length < 2 ^ 64 := by
    have := cleanSeq_length_le seq
    omega
  rw [decode_mkContainer _ _ _ _ (by simpa using hdlen) hs64,
    packLoop_eq_packSpec codes hcodes4, decodeBytes_spec, meta_roundtrip desc hd0]
  simp only [Nat.sub_zero, Nat.zero_add]
  have htake : (allCodes (packSpec codes)).take (cleanSeq seq).length = codes := by
    rw [← hcodeslen]
    exact allCodes_packSpec_take codes hcodes4
  rw [htake, hmapdec]
  have hmin : min (cleanSeq seq).length (4 * (packSpec codes).length) = seq.length := by
    rw [packSpec_length, hcodeslen, hcl]
    omega
  rw [hmin, wrap60]
  simp [List.append_assoc]

/-- Witness for C1 at the concrete record `">d"` / `"ACGU"`. -/
theorem C1_witness :
    decode_seq_to_fasta [83, 69, 81, 1, 1, 2, 0, 0, 0, 62, 100, 2, 4, 0, 0, 0, 0, 0, 0, 0, 27] =
      .ok (['>', 'd'] ++ '\n' :: wrap60 ['A', 'C', 'G', 'U']) :=
  C1_roundtrip ['>', 'd'] ['A', 'C', 'G', 'U'] _ (by decide) (by decide) (by decide)
    (by decide) (Or.inr (by decide))
